import Mathlib

/-!
Verification of `symbolic_interval/symbolic_network.py` (repository edwardxu0/SIP).

Tensors are embedded as functions `Fin B → ι → ℚ` (batch index × unit index,
exact rational entries).  The companion module `symbolic_interval/interval.py`
(classes `Interval` and `Symbolic_interval`) is not part of `src/`; the
operations of those classes that `symbolic_network.py` calls (`construct`,
`update_lu`, `concretize`, `worst_case`) are modelled from the specification
(sections 3, 4.1 and 4.2) and are marked `Modelled from the spec` below.
Everything else is translated directly from `symbolic_network.py`.

The Python code keeps two parallel lists `ix.edep` / `ix.edep_ind` of equal
length (one error-dependency matrix plus one owner-indicator matrix per ReLU
layer that introduced relaxations); we embed the pair of parallel lists as a
single list of `EdepEntry` records, each holding the dependency rows (`dep`)
and the matching owner indicator rows (`ind`).
-/

namespace SIP

/-- A batched rational tensor: batch index in `Fin B`, unit index in `ι`. -/
abbrev Tensor (B : Nat) (ι : Type) : Type := Fin B → ι → ℚ

/-! ### The box interval domain (`Interval` in `interval.py`) -/

/-- Box interval state: bounds `l ≤ u`, derived center `c` and radius `e`,
plus the list of diagnostic ReLU slope masks (`ix.mask` in the source). -/
structure Interval (B : Nat) (ι : Type) where
  l : Tensor B ι
  u : Tensor B ι
  c : Tensor B ι
  e : Tensor B ι
  mask : List (Tensor B ι)

variable {B : Nat} {ι ι₀ : Type}

/-- Modelled from the spec (§3, §4.1): `interval.py` is absent from `src/`.
Store bounds `l`, `u` together with the derived center `(l+u)/2` and radius
`(u-l)/2`, keeping a given diagnostic mask list. -/
def Interval.ofBounds (l u : Tensor B ι) (mask : List (Tensor B ι)) : Interval B ι :=
  ⟨l, u, fun b j => (l b j + u b j) / 2, fun b j => (u b j - l b j) / 2, mask⟩

/-- Modelled from the spec (§4.1): `update_lu` replaces the bounds in place
and recomputes the derived center and radius; the mask list is untouched. -/
def Interval.update_lu (ix : Interval B ι) (l u : Tensor B ι) : Interval B ι :=
  Interval.ofBounds l u ix.mask

/-- Modelled from the spec (§4.1): the `Interval` constructor; the mask list
starts empty. -/
def Interval.construct (l u : Tensor B ι) : Interval B ι :=
  Interval.ofBounds l u []

/-- Modelled from the spec (§4.1, §8): worst-case logits — the true-label
logit is pinned to its lower bound, every other logit to its upper bound. -/
def Interval.worst_case {K : Nat} (ix : Interval B (Fin K)) (y : Fin B → Fin K) :
    Fin B → Fin K → ℚ :=
  fun b k => if k = y b then ix.l b k else ix.u b k

/-! ### The symbolic interval domain (`Symbolic_interval` in `interval.py`) -/

/-- One entry of the error-dependency bookkeeping: `rows` injected error rows,
their coefficients over the units (`dep`, the source's `ix.edep[i]`) and the
owner indicator over the batch (`ind`, the source's `ix.edep_ind[i]`). -/
structure EdepEntry (B : Nat) (ι : Type) where
  rows : Nat
  dep : Fin rows → ι → ℚ
  ind : Fin rows → Fin B → ℚ

/-- Symbolic interval state: center `c`, exact input dependency `idep`
(over the original input units `ι₀`), the error-dependency entries `edep`,
and the concretized bounds `l`, `u`. -/
structure Symbolic_interval (B : Nat) (ι₀ ι : Type) where
  c : Tensor B ι
  idep : Fin B → ι₀ → ι → ℚ
  edep : List (EdepEntry B ι)
  l : Tensor B ι
  u : Tensor B ι

/-- Modelled from the spec (§3, §4.2): recompute the concretized bounds as
center ∓ (sum of |exact dependency| plus, per error entry, the owner-weighted
sum of |error rows|). -/
def Symbolic_interval.concretize [Fintype ι₀] (ix : Symbolic_interval B ι₀ ι) :
    Symbolic_interval B ι₀ ι :=
  let dev : Tensor B ι := fun b j =>
    (∑ k : ι₀, |ix.idep b k j|) +
      (ix.edep.map (fun en => ∑ r : Fin en.rows, en.ind r b * |en.dep r j|)).sum
  { ix with l := fun b j => ix.c b j - dev b j, u := fun b j => ix.c b j + dev b j }

/-- Modelled from the spec (§4.2): the `Symbolic_interval` constructor —
center `(l+u)/2`, exact dependency diagonal with coefficient `(u-l)/2`, no
error entries; concretizing immediately reproduces `l`/`u`. -/
def Symbolic_interval.construct [Fintype ι] [DecidableEq ι] (l u : Tensor B ι) :
    Symbolic_interval B ι ι :=
  Symbolic_interval.concretize
    { c := fun b j => (l b j + u b j) / 2
      idep := fun b k j => if k = j then (u b j - l b j) / 2 else 0
      edep := []
      l := l
      u := u }

/-- Modelled from the spec (§4.2): symbolic worst-case logits — concretize
first, then pin the true-label logit to its lower bound and every other logit
to its upper bound. -/
def Symbolic_interval.worst_case {K : Nat} [Fintype ι₀]
    (ix : Symbolic_interval B ι₀ (Fin K)) (y : Fin B → Fin K) : Fin B → Fin K → ℚ :=
  let ixc := ix.concretize
  fun b k => if k = y b then ixc.l b k else ixc.u b k

/-! ### Linear and convolution primitives (`F.linear`, `F.conv2d`) -/

/-- `F.linear(x, W, bias)`: `out o = (∑ j, x j * W o j) + bias o`. -/
def linearB {p q : Nat} (W : Fin p → Fin q → ℚ) (bias : Fin p → ℚ)
    (x : Fin q → ℚ) : Fin p → ℚ :=
  fun o => (∑ j : Fin q, x j * W o j) + bias o

/-- `F.linear(x, W)` with `bias=None`: no bias term. -/
def linearNB {p q : Nat} (W : Fin p → Fin q → ℚ) (x : Fin q → ℚ) : Fin p → ℚ :=
  fun o => ∑ j : Fin q, x j * W o j

/-- Zero-padded read of a `C × H × W` image at (possibly out-of-range)
row `r`, column `t` of the padded image (padding `ph`, `pw`). -/
def padVal {C H W : Nat} (x : Fin C → Fin H → Fin W → ℚ) (ph pw : Nat)
    (cc : Fin C) (r t : Nat) : ℚ :=
  if h : ph ≤ r ∧ r - ph < H ∧ pw ≤ t ∧ t - pw < W then
    x cc ⟨r - ph, h.2.1⟩ ⟨t - pw, h.2.2.2⟩
  else 0

/-- `F.conv2d(x, w, stride=(sh,sw), padding=(ph,pw), bias)`: cross-correlation
with zero padding. -/
def conv2d {C H W KH KW O OH OW : Nat}
    (w : Fin O → Fin C → Fin KH → Fin KW → ℚ) (bias : Fin O → ℚ)
    (sh sw ph pw : Nat) (x : Fin C → Fin H → Fin W → ℚ) :
    Fin O → Fin OH → Fin OW → ℚ :=
  fun o i j => bias o +
    ∑ cc : Fin C, ∑ di : Fin KH, ∑ dj : Fin KW,
      w o cc di dj * padVal x ph pw cc (i.1 * sh + di.1) (j.1 * sw + dj.1)

/-! ### `Interval_Dense.forward` -/

/-- `Interval_Dense.forward` on a `Symbolic_interval` (source lines 65-77):
center gets `F.linear` with bias, `idep` and every `edep` entry get
`F.linear` without bias, then `concretize`. -/
def Interval_Dense.forwardSym {p q : Nat} [Fintype ι₀]
    (W : Fin p → Fin q → ℚ) (bias : Fin p → ℚ)
    (ix : Symbolic_interval B ι₀ (Fin q)) : Symbolic_interval B ι₀ (Fin p) :=
  Symbolic_interval.concretize
    { c := fun b => linearB W bias (ix.c b)
      idep := fun b k => linearNB W (ix.idep b k)
      edep := ix.edep.map (fun en => ⟨en.rows, fun r => linearNB W (en.dep r), en.ind⟩)
      l := fun _ _ => 0
      u := fun _ _ => 0 }

/-- `Interval_Dense.forward` on a box `Interval` (source lines 79-87):
`c' = F.linear(c, W, bias)`, `e' = F.linear(e, |W|)`, then
`update_lu(c'-e', c'+e')`.  The diagnostic mask tensors stored by earlier
ReLU layers have the layer's input shape; across a shape-changing affine
layer our shape-typed embedding starts from an empty mask list (the masks
are observational only, spec §4.1). -/
def Interval_Dense.forwardBox {p q : Nat}
    (W : Fin p → Fin q → ℚ) (bias : Fin p → ℚ)
    (ix : Interval B (Fin q)) : Interval B (Fin p) :=
  let c := fun b => linearB W bias (ix.c b)
  let e := fun b => linearNB (fun o j => |W o j|) (ix.e b)
  Interval.ofBounds (fun b o => c b o - e b o) (fun b o => c b o + e b o) []

/-! ### `Interval_Conv2d.forward` -/

/-- `Interval_Conv2d.forward` on a `Symbolic_interval` (source lines 98-118):
center gets `F.conv2d` with bias, `idep` and every `edep` entry get
`F.conv2d` without bias, then `concretize`.  The preceding `ix.shrink()` is a
pure reshape back to the spatial layout (spec §4.2); our state is already
spatially shaped, so it is the identity here. -/
def Interval_Conv2d.forwardSym {C H W KH KW O OH OW : Nat} [Fintype ι₀]
    (w : Fin O → Fin C → Fin KH → Fin KW → ℚ) (bias : Fin O → ℚ)
    (sh sw ph pw : Nat)
    (ix : Symbolic_interval B ι₀ (Fin C × Fin H × Fin W)) :
    Symbolic_interval B ι₀ (Fin O × Fin OH × Fin OW) :=
  Symbolic_interval.concretize
    { c := fun b q => conv2d w bias sh sw ph pw
              (fun cc i j => ix.c b (cc, i, j)) q.1 q.2.1 q.2.2
      idep := fun b k q => conv2d w (fun _ => 0) sh sw ph pw
              (fun cc i j => ix.idep b k (cc, i, j)) q.1 q.2.1 q.2.2
      edep := ix.edep.map (fun en =>
        ⟨en.rows,
         fun r q => conv2d w (fun _ => 0) sh sw ph pw
              (fun cc i j => en.dep r (cc, i, j)) q.1 q.2.1 q.2.2,
         en.ind⟩)
      l := fun _ _ => 0
      u := fun _ _ => 0 }

/-- `Interval_Conv2d.forward` on a box `Interval` (source lines 120-131):
`c' = F.conv2d(c, w, bias)`, `e' = F.conv2d(e, |w|)` (no bias), then
`update_lu(c'-e', c'+e')`. -/
def Interval_Conv2d.forwardBox {C H W KH KW O OH OW : Nat}
    (w : Fin O → Fin C → Fin KH → Fin KW → ℚ) (bias : Fin O → ℚ)
    (sh sw ph pw : Nat)
    (ix : Interval B (Fin C × Fin H × Fin W)) :
    Interval B (Fin O × Fin OH × Fin OW) :=
  let c := fun b (q : Fin O × Fin OH × Fin OW) =>
    conv2d w bias sh sw ph pw (fun cc i j => ix.c b (cc, i, j)) q.1 q.2.1 q.2.2
  let e := fun b (q : Fin O × Fin OH × Fin OW) =>
    conv2d (fun o cc di dj => |w o cc di dj|) (fun _ => 0) sh sw ph pw
      (fun cc i j => ix.e b (cc, i, j)) q.1 q.2.1 q.2.2
  Interval.ofBounds (fun b q => c b q - e b q) (fun b q => c b q + e b q) []

/-! ### `Interval_ReLU.forward`, symbolic branch (source lines 141-177) -/

/-- The slope mask of the symbolic ReLU branch (source lines 145-148):
`mask = (lower>0)`, overwritten at ambiguous units (`lower<0<upper`) by
`upper/(upper-lower)`. -/
def reluMask (ix : Symbolic_interval B ι₀ ι) : Tensor B ι := fun b j =>
  if ix.l b j < 0 ∧ 0 < ix.u b j then ix.u b j / (ix.u b j - ix.l b j)
  else if 0 < ix.l b j then 1 else 0

/-- `appr_err = mask * (-lower) / 2` (source line 153). -/
def apprErr (ix : Symbolic_interval B ι₀ ι) : Tensor B ι := fun b j =>
  reluMask ix b j * (-ix.l b j) / 2

/-- Row-major list of all pairs, `l₂`-inner (`List.product`). -/
def pairList {α β : Type} (l₁ : List α) (l₂ : List β) : List (α × β) :=
  l₁ ×ˢ l₂

/-- The ambiguous (batch, unit) pairs in row-major order, mirroring
`appr_condition.view(-1, ix.n).nonzero()` (source line 151); `order` is the
row-major enumeration of the unit index type. -/
def apprPairs (ix : Symbolic_interval B ι₀ ι) (order : List ι) :
    List (Fin B × ι) :=
  (pairList (List.finRange B) order).filter
    (fun q => decide (ix.l q.1 q.2 < 0 ∧ 0 < ix.u q.1 q.2))

/-- The error entry appended by the symbolic ReLU branch: one row per
ambiguous pair, the row nonzero only at that pair's unit with value
`appr_err`, and the owner indicator one-hot at that pair's sample
(source lines 150-164). -/
def reluNewEntry [DecidableEq ι] (ix : Symbolic_interval B ι₀ ι)
    (order : List ι) : EdepEntry B ι :=
  let pairs := apprPairs ix order
  ⟨pairs.length,
   fun r j => if j = (pairs.get r).2 then apprErr ix (pairs.get r).1 (pairs.get r).2 else 0,
   fun r b => if b = (pairs.get r).1 then 1 else 0⟩

/-- Scaling of one existing error entry by the owner's slope mask:
`ix.edep[i] *= ix.edep_ind[i].mm(mask)` (source line 169); the owner
indicator itself is unchanged. -/
def reluScaleEntry (mask : Tensor B ι) (en : EdepEntry B ι) : EdepEntry B ι :=
  ⟨en.rows, fun r j => en.dep r j * ∑ b : Fin B, en.ind r b * mask b j, en.ind⟩

/-- `Interval_ReLU.forward` on a `Symbolic_interval` (source lines 141-177):
scale center / `idep` / existing error rows by the slope mask, shift the
center by `appr_err` at ambiguous units, and append the new error entry.
The bounds `l`, `u` are not touched by this branch. -/
def Interval_ReLU.forwardSym [DecidableEq ι] (ix : Symbolic_interval B ι₀ ι)
    (order : List ι) : Symbolic_interval B ι₀ ι :=
  { c := fun b j => ix.c b j * reluMask ix b j +
      (if ix.l b j < 0 ∧ 0 < ix.u b j then apprErr ix b j else 0)
    idep := fun b k j => ix.idep b k j * reluMask ix b j
    edep := ix.edep.map (reluScaleEntry (reluMask ix)) ++ [reluNewEntry ix order]
    l := ix.l
    u := ix.u }

/-! ### `Interval_ReLU.forward`, box branch (source lines 179-199) -/

/-- The 0/1 indicator of ambiguous units in the box branch,
`(lower<0) * (upper>0)` (source lines 183-188). -/
def boxApprInd (ix : Interval B ι) : Tensor B ι := fun b j =>
  if ix.l b j < 0 ∧ 0 < ix.u b j then 1 else 0

/-- The slope denominator of the box branch, `upper - lower + 0.000001`
(source line 190). -/
def boxDenom (ix : Interval B ι) : Tensor B ι := fun b j =>
  ix.u b j - ix.l b j + 1 / 1000000

/-- The diagnostic slope mask of the box branch (source lines 190-196):
`mask = appr*(u/(u-l+1e-6)) + 1 - appr`, then multiplied by the
`(upper>0)` indicator. -/
def boxMask (ix : Interval B ι) : Tensor B ι := fun b j =>
  (boxApprInd ix b j * (ix.u b j / boxDenom ix b j) + 1 - boxApprInd ix b j) *
    (if 0 < ix.u b j then 1 else 0)

/-- `Interval_ReLU.forward` on a box `Interval` (source lines 179-199):
append the slope mask to `ix.mask`, then `update_lu(F.relu(l), F.relu(u))` —
the naive elementwise relu of the old bounds. -/
def Interval_ReLU.forwardBox (ix : Interval B ι) : Interval B ι :=
  Interval.update_lu { ix with mask := ix.mask ++ [boxMask ix] }
    (fun b j => max 0 (ix.l b j)) (fun b j => max 0 (ix.u b j))

/-! ### `Interval_Flatten.forward` (source lines 206-213) -/

/-- Row-major decoding of a flat index into (channel, row, column). -/
def unflatten (c h w : Nat) (i : Fin (c * h * w)) : Fin c × Fin h × Fin w :=
  have hi : i.1 < (h * w) * c := by
    have h2 := i.2
    exact lt_of_lt_of_eq h2 (by ring)
  have hw0 : 0 < h * w := by
    rcases Nat.eq_zero_or_pos (h * w) with h0 | hpos
    · rw [h0, Nat.zero_mul] at hi
      exact absurd hi (Nat.not_lt_zero _)
    · exact hpos
  have hwpos : 0 < w := by
    rcases Nat.eq_zero_or_pos w with h0 | hpos
    · rw [h0, Nat.mul_zero] at hw0
      exact absurd hw0 (Nat.lt_irrefl 0)
    · exact hpos
  ⟨⟨i.1 / (h * w), Nat.div_lt_of_lt_mul hi⟩,
   ⟨i.1 % (h * w) / w, by
      have hm : i.1 % (h * w) < w * h := by
        have hlt := Nat.mod_lt i.1 hw0
        exact lt_of_lt_of_eq hlt (Nat.mul_comm h w)
      exact Nat.div_lt_of_lt_mul hm⟩,
   ⟨i.1 % w, Nat.mod_lt _ hwpos⟩⟩

/-- `Interval_Flatten.forward` on a `Symbolic_interval` (`ix.extend()`, a pure
row-major reshape of every tensor, spec §4.2). -/
def Interval_Flatten.forwardSym {c h w : Nat}
    (ix : Symbolic_interval B ι₀ (Fin c × Fin h × Fin w)) :
    Symbolic_interval B ι₀ (Fin (c * h * w)) :=
  { c := fun b i => ix.c b (unflatten c h w i)
    idep := fun b k i => ix.idep b k (unflatten c h w i)
    edep := ix.edep.map (fun en =>
      ⟨en.rows, fun r i => en.dep r (unflatten c h w i), en.ind⟩)
    l := fun b i => ix.l b (unflatten c h w i)
    u := fun b i => ix.u b (unflatten c h w i) }

/-- `Interval_Flatten.forward` on a box `Interval`:
`update_lu(l.view(B,-1), u.view(B,-1))`, a pure row-major reshape of the
bounds.  As for the affine layers, old-shape diagnostic masks cannot be
retained across the shape change in the typed embedding. -/
def Interval_Flatten.forwardBox {c h w : Nat}
    (ix : Interval B (Fin c × Fin h × Fin w)) : Interval B (Fin (c * h * w)) :=
  Interval.ofBounds (fun b i => ix.l b (unflatten c h w i))
    (fun b i => ix.u b (unflatten c h w i)) []

/-! ### Shapes, layers and the network driver (`Interval_network`) -/

/-- The activation shape of a layer boundary: flat (after `Flatten` /
`Linear`) or spatial channels × height × width. -/
inductive Shape where
  | flat (n : Nat)
  | spatial (c h w : Nat)

/-- The unit index type of a shape. -/
def Shape.Idx : Shape → Type
  | .flat n => Fin n
  | .spatial c h w => Fin c × Fin h × Fin w

instance (s : Shape) : Fintype s.Idx :=
  match s with
  | .flat n => inferInstanceAs (Fintype (Fin n))
  | .spatial c h w => inferInstanceAs (Fintype (Fin c × Fin h × Fin w))

instance (s : Shape) : DecidableEq s.Idx :=
  match s with
  | .flat n => inferInstanceAs (DecidableEq (Fin n))
  | .spatial c h w => inferInstanceAs (DecidableEq (Fin c × Fin h × Fin w))

/-- Row-major enumeration of a shape's unit indices (the order of
`tensor.view(-1)` in torch). -/
def Shape.idxList : (s : Shape) → List s.Idx
  | .flat n => List.finRange n
  | .spatial c h w =>
      pairList (List.finRange c) (pairList (List.finRange h) (List.finRange w))

/-- A layer descriptor of the input model (`nn.Sequential` entry): the four
kinds the driver recognizes, plus `unrecognized` for every other layer kind
(spec §6: such layers are silently skipped). -/
inductive Layer : Shape → Shape → Type where
  | linear {q p : Nat} (W : Fin p → Fin q → ℚ) (bias : Fin p → ℚ) :
      Layer (.flat q) (.flat p)
  | relu (s : Shape) : Layer s s
  | conv2d {C H W O KH KW OH OW : Nat}
      (w : Fin O → Fin C → Fin KH → Fin KW → ℚ) (bias : Fin O → ℚ)
      (sh sw ph pw : Nat) : Layer (.spatial C H W) (.spatial O OH OW)
  | flatten (c h w : Nat) : Layer (.spatial c h w) (.flat (c * h * w))
  | unrecognized (s : Shape) : Layer s s

/-- A transfer function of the interval network (`Interval_Dense`,
`Interval_ReLU`, `Interval_Conv2d`, `Interval_Flatten`). -/
inductive TransferFn : Shape → Shape → Type where
  | dense {q p : Nat} (W : Fin p → Fin q → ℚ) (bias : Fin p → ℚ) :
      TransferFn (.flat q) (.flat p)
  | relu (s : Shape) : TransferFn s s
  | conv {C H W O KH KW OH OW : Nat}
      (w : Fin O → Fin C → Fin KH → Fin KW → ℚ) (bias : Fin O → ℚ)
      (sh sw ph pw : Nat) : TransferFn (.spatial C H W) (.spatial O OH OW)
  | flatten (c h w : Nat) : TransferFn (.spatial c h w) (.flat (c * h * w))

/-- A shape-typed sequence of layer descriptors. -/
inductive LayerSeq : Shape → Shape → Type where
  | nil (s : Shape) : LayerSeq s s
  | cons {s t u : Shape} : Layer s t → LayerSeq t u → LayerSeq s u

/-- A shape-typed sequence of transfer functions (the driver's `self.net`). -/
inductive TFSeq : Shape → Shape → Type where
  | nil (s : Shape) : TFSeq s s
  | cons {s t u : Shape} : TransferFn s t → TFSeq t u → TFSeq s u

/-- Number of transfer functions in a sequence. -/
def TFSeq.len {s t : Shape} : TFSeq s t → Nat
  | .nil _ => 0
  | .cons _ rest => rest.len + 1

/-- Number of recognized (non-`unrecognized`) layers in a descriptor list. -/
def LayerSeq.countRecognized {s t : Shape} : LayerSeq s t → Nat
  | .nil _ => 0
  | .cons (.linear _ _) rest => rest.countRecognized + 1
  | .cons (.relu _) rest => rest.countRecognized + 1
  | .cons (.conv2d _ _ _ _ _ _) rest => rest.countRecognized + 1
  | .cons (.flatten _ _ _) rest => rest.countRecognized + 1
  | .cons (.unrecognized _) rest => rest.countRecognized

/-- `Interval_network.__init__` (source lines 31-43): build the transfer
function sequence, one per recognized layer in order, silently skipping every
unrecognized layer kind. -/
def Interval_network {s t : Shape} : LayerSeq s t → TFSeq s t
  | .nil _ => .nil _
  | .cons (.linear W bias) rest => .cons (.dense W bias) (Interval_network rest)
  | .cons (.relu _) rest => .cons (.relu _) (Interval_network rest)
  | .cons (.conv2d w bias sh sw ph pw) rest =>
      .cons (.conv w bias sh sw ph pw) (Interval_network rest)
  | .cons (.flatten c h w) rest => .cons (.flatten c h w) (Interval_network rest)
  | .cons (.unrecognized _) rest => Interval_network rest

/-- Apply one transfer function to a box `Interval`. -/
def TransferFn.applyBox {s t : Shape} :
    TransferFn s t → Interval B s.Idx → Interval B t.Idx
  | .dense W bias, ix => Interval_Dense.forwardBox W bias ix
  | .relu _, ix => Interval_ReLU.forwardBox ix
  | .conv w bias sh sw ph pw, ix => Interval_Conv2d.forwardBox w bias sh sw ph pw ix
  | .flatten _ _ _, ix => Interval_Flatten.forwardBox ix

/-- Apply one transfer function to a `Symbolic_interval` (with input shape
`s₀` carrying the exact-dependency index). -/
def TransferFn.applySym {s₀ s t : Shape} :
    TransferFn s t → Symbolic_interval B s₀.Idx s.Idx → Symbolic_interval B s₀.Idx t.Idx
  | .dense W bias, ix => Interval_Dense.forwardSym W bias ix
  | .relu s, ix => Interval_ReLU.forwardSym ix s.idxList
  | .conv w bias sh sw ph pw, ix => Interval_Conv2d.forwardSym w bias sh sw ph pw ix
  | .flatten _ _ _, ix => Interval_Flatten.forwardSym ix

/-- A value flowing between transfer functions in the driver: a box interval,
a symbolic interval, Python's `None`, or any other non-domain object. -/
inductive DomainValue (B : Nat) (s₀ : Shape) : Shape → Type where
  | box {s : Shape} (ix : Interval B s.Idx) : DomainValue B s₀ s
  | sym {s : Shape} (ix : Symbolic_interval B s₀.Idx s.Idx) : DomainValue B s₀ s
  | pyNone {s : Shape} : DomainValue B s₀ s
  | otherObj {s : Shape} : DomainValue B s₀ s

/-- One transfer function's `forward` (the `isinstance` dispatch): a
`Symbolic_interval` and an `Interval` are propagated; any other input falls
through both `isinstance` checks and the method implicitly returns `None`. -/
def TransferFn.apply {s₀ s t : Shape} (tf : TransferFn s t) :
    DomainValue B s₀ s → DomainValue B s₀ t
  | .box ix => .box (tf.applyBox ix)
  | .sym ix => .sym (tf.applySym ix)
  | .pyNone => .pyNone
  | .otherObj => .pyNone

/-- `Interval_network.forward` (source lines 51-55): apply each transfer
function in order, passing the result forward. -/
def TFSeq.run {s₀ : Shape} {s t : Shape} :
    TFSeq s t → DomainValue B s₀ s → DomainValue B s₀ t
  | .nil _, d => d
  | .cons tf rest, d => rest.run (tf.apply d)

/-- The driver's forward pass restricted to a box interval input. -/
def TFSeq.runBox {s t : Shape} : TFSeq s t → Interval B s.Idx → Interval B t.Idx
  | .nil _, ix => ix
  | .cons tf rest, ix => rest.runBox (tf.applyBox ix)

/-- The driver's forward pass restricted to a symbolic interval input. -/
def TFSeq.runSym {s₀ s t : Shape} :
    TFSeq s t → Symbolic_interval B s₀.Idx s.Idx → Symbolic_interval B s₀.Idx t.Idx
  | .nil _, ix => ix
  | .cons tf rest, ix => rest.runSym (tf.applySym ix)

/-! ### The two verification entry points (source lines 227-250, 264-287) -/

/-- `torch.clamp(x, lo, hi)`: `min (max x lo) hi`. -/
def clampQ (x lo hi : ℚ) : ℚ := min (max x lo) hi

/-- `X.min()`: minimum entry of the input batch. -/
def batchMin [Fintype ι] (X : Fin B → ι → ℚ)
    (hne : (Finset.univ : Finset (Fin B × ι)).Nonempty) : ℚ :=
  Finset.univ.inf' hne (fun q => X q.1 q.2)

/-- `X.max()`: maximum entry of the input batch. -/
def batchMax [Fintype ι] (X : Fin B → ι → ℚ)
    (hne : (Finset.univ : Finset (Fin B × ι)).Nonempty) : ℚ :=
  Finset.univ.sup' hne (fun q => X q.1 q.2)

/-- `wc.max(1)[1]`: an index of a maximal logit (first maximal index; torch
does not pin down the tie order, and no claim depends on it). -/
def argmaxFirst {K : Nat} (v : Fin K → ℚ) (hK : 0 < K) : Fin K :=
  (List.finRange K).foldl (fun best i => if v best < v i then i else best) ⟨0, hK⟩

/-- `nn.CrossEntropyLoss()(wc, y)`: mean over the batch of
`log (∑ k, exp (wc k)) - wc (y b)`. -/
noncomputable def crossEntropyLoss {B K : Nat} (wc : Fin B → Fin K → ℚ)
    (y : Fin B → Fin K) : ℝ :=
  (∑ b : Fin B, (Real.log (∑ k : Fin K, Real.exp ((wc b k : ℝ))) - ((wc b (y b) : ℝ)))) /
    (B : ℝ)

/-- `(wc.max(1)[1] != y).sum() / B`: fraction of samples whose worst-case
prediction disagrees with the true label. -/
def errRate {B K : Nat} (wc : Fin B → Fin K → ℚ) (y : Fin B → Fin K)
    (hK : 0 < K) : ℚ :=
  ((Finset.univ.filter (fun b : Fin B => argmaxFirst (wc b) hK ≠ y b)).card : ℚ) / (B : ℚ)

/-- `naive_interval_analyze` (source lines 227-250): clamp `X ± epsilon` to
the batch minimum/maximum, run the interval network on the box domain, and
return the cross-entropy of the worst-case logits and the robust error
rate. -/
noncomputable def naive_interval_analyze {B K : Nat} {s : Shape}
    (model : LayerSeq s (.flat K)) (epsilon : ℚ)
    (X : Fin B → s.Idx → ℚ) (y : Fin B → Fin K)
    (hne : (Finset.univ : Finset (Fin B × s.Idx)).Nonempty) (hK : 0 < K) : ℝ × ℚ :=
  let inet := Interval_network model
  let minimum := batchMin X hne
  let maximum := batchMax X hne
  let ix := Interval.construct
    (fun b j => clampQ (X b j - epsilon) minimum maximum)
    (fun b j => clampQ (X b j + epsilon) minimum maximum)
  let wc := (inet.runBox ix).worst_case y
  (crossEntropyLoss wc y, errRate wc y hK)

/-- `sym_interval_analyze` (source lines 264-287): clamp `X ± epsilon` to the
batch minimum/maximum, run the interval network on the symbolic domain, and
return the cross-entropy of the worst-case logits and the robust error
rate. -/
noncomputable def sym_interval_analyze {B K : Nat} {s : Shape}
    (model : LayerSeq s (.flat K)) (epsilon : ℚ)
    (X : Fin B → s.Idx → ℚ) (y : Fin B → Fin K)
    (hne : (Finset.univ : Finset (Fin B × s.Idx)).Nonempty) (hK : 0 < K) : ℝ × ℚ :=
  let inet := Interval_network model
  let minimum := batchMin X hne
  let maximum := batchMax X hne
  let ix := Symbolic_interval.construct
    (fun b j => clampQ (X b j - epsilon) minimum maximum)
    (fun b j => clampQ (X b j + epsilon) minimum maximum)
  let wc := (inet.runSym ix).worst_case y
  (crossEntropyLoss wc y, errRate wc y hK)

/-! ### Auxiliary notions and concrete states used by the theorems below -/

/-- The total number of ambiguous (batch, unit) positions, the source's
`int(appr_condition.sum().item())` (source line 150). -/
def apprCard [Fintype ι] (ix : Symbolic_interval B ι₀ ι) : Nat :=
  ((Finset.univ : Finset (Fin B × ι)).filter
    (fun q => ix.l q.1 q.2 < 0 ∧ 0 < ix.u q.1 q.2)).card

/-- A vector over the batch is one-hot: a single entry equals 1 and all
others are 0. -/
def isOneHot {B : Nat} (v : Fin B → ℚ) : Prop :=
  ∃ b : Fin B, v b = 1 ∧ ∀ b2 : Fin B, b2 ≠ b → v b2 = 0

/-- A concrete ambiguous box state: one sample, one unit, bounds [-1, 1]. -/
def exBox : Interval 1 (Fin 1) :=
  Interval.construct (fun _ _ => -1) (fun _ _ => 1)

/-- A concrete degenerate box state: bounds [1, 1] (upper == lower). -/
def exBoxDeg : Interval 1 (Fin 1) :=
  Interval.construct (fun _ _ => 1) (fun _ _ => 1)

/-- A concrete symbolic state whose single unit has lower bound exactly 0:
bounds [0, 1], center 1/2, exact dependency 1/2, no error entries. -/
def exSymZ : Symbolic_interval 1 (Fin 1) (Fin 1) :=
  ⟨fun _ _ => 1/2, fun _ _ _ => 1/2, [], fun _ _ => 0, fun _ _ => 1⟩

/-- A concrete ambiguous symbolic state: bounds [-1, 1], center 1,
exact dependency 1, no error entries. -/
def exSymAmb : Symbolic_interval 1 (Fin 1) (Fin 1) :=
  ⟨fun _ _ => 1, fun _ _ _ => 1, [], fun _ _ => -1, fun _ _ => 1⟩

/-- A concrete degenerate symbolic state: bounds [1, 1] (upper == lower). -/
def exSymDeg : Symbolic_interval 1 (Fin 1) (Fin 1) :=
  ⟨fun _ _ => 1, fun _ _ _ => 0, [], fun _ _ => 1, fun _ _ => 1⟩

/-- A concrete symbolic batch state: two samples, two units, exactly one
ambiguous position (sample 0, unit 0 with bounds [-1, 1]). -/
def exSym3 : Symbolic_interval 2 (Fin 2) (Fin 2) :=
  ⟨fun _ _ => 0, fun _ _ _ => 0, [],
   fun b j => if b = 0 ∧ j = 0 then -1 else 1, fun _ _ => 1⟩

/-- A concrete one-layer model (a single ReLU followed by an unrecognized
layer) used to instantiate the entry points. -/
def exModel : LayerSeq (Shape.flat 1) (Shape.flat 1) :=
  .cons (.relu _) (.cons (.unrecognized _) (.nil _))

/-- A concrete one-sample input batch for the entry points. -/
def exX : Fin 1 → (Shape.flat 1).Idx → ℚ := fun _ _ => 0

/-- A concrete label vector for the entry points. -/
def exY : Fin 1 → Fin 1 := fun _ => 0

/-! ### Supporting lemmas -/

theorem pairList_nodup {α β : Type} {l₁ : List α} {l₂ : List β}
    (h₁ : l₁.Nodup) (h₂ : l₂.Nodup) : (pairList l₁ l₂).Nodup :=
  h₁.product h₂

theorem mem_pairList {α β : Type} {l₁ : List α} {l₂ : List β} {a : α} {b : β} :
    (a, b) ∈ pairList l₁ l₂ ↔ a ∈ l₁ ∧ b ∈ l₂ :=
  List.mem_product

theorem length_filter_eq_card {α : Type} [Fintype α] [DecidableEq α]
    (l : List α) (hn : l.Nodup) (hc : ∀ a : α, a ∈ l) (p : α → Bool) :
    (l.filter p).length = (Finset.univ.filter (fun a => p a = true)).card := by
  rw [← List.toFinset_card_of_nodup (hn.filter p)]
  congr 1
  ext a
  simp [List.mem_filter, hc]

theorem mem_apprPairs {B : Nat} {ι₀ ι : Type} (ix : Symbolic_interval B ι₀ ι)
    (order : List ι) (b : Fin B) (j : ι) :
    (b, j) ∈ apprPairs ix order ↔ j ∈ order ∧ (ix.l b j < 0 ∧ 0 < ix.u b j) := by
  constructor
  · intro h
    have h1 := (List.mem_filter.1 h).1
    have h2 := of_decide_eq_true (List.mem_filter.1 h).2
    exact ⟨(mem_pairList.1 h1).2, h2⟩
  · intro h
    exact List.mem_filter.2
      ⟨mem_pairList.2 ⟨List.mem_finRange b, h.1⟩, decide_eq_true h.2⟩

theorem apprPairs_nodup {B : Nat} {ι₀ ι : Type} (ix : Symbolic_interval B ι₀ ι)
    (order : List ι) (h : order.Nodup) : (apprPairs ix order).Nodup :=
  (pairList_nodup (List.nodup_finRange B) h).filter _

theorem length_apprPairs {B : Nat} {ι₀ ι : Type} [Fintype ι] [DecidableEq ι]
    (ix : Symbolic_interval B ι₀ ι) (order : List ι)
    (hnd : order.Nodup) (hc : ∀ j : ι, j ∈ order) :
    (apprPairs ix order).length = apprCard ix := by
  have hcomplete : ∀ q : Fin B × ι, q ∈ pairList (List.finRange B) order := by
    intro q
    cases q with
    | mk a b => exact mem_pairList.2 ⟨List.mem_finRange a, hc b⟩
  rw [apprPairs,
    length_filter_eq_card _ (pairList_nodup (List.nodup_finRange B) hnd) hcomplete]
  have hset : ((Finset.univ : Finset (Fin B × ι)).filter
      (fun q => decide (ix.l q.1 q.2 < 0 ∧ 0 < ix.u q.1 q.2) = true))
      = (Finset.univ : Finset (Fin B × ι)).filter
        (fun q => ix.l q.1 q.2 < 0 ∧ 0 < ix.u q.1 q.2) := by
    ext q
    simp
  rw [hset, apprCard]

theorem exHne : (Finset.univ : Finset (Fin 1 × (Shape.flat 1).Idx)).Nonempty :=
  ⟨((0 : Fin 1), (show (Shape.flat 1).Idx from (0 : Fin 1))), Finset.mem_univ _⟩

theorem exHK : 0 < 1 :=
  Nat.one_pos

theorem run_pyNone {B : Nat} {s₀ : Shape} :
    ∀ {s t : Shape} (net : TFSeq s t),
      TFSeq.run net (DomainValue.pyNone : DomainValue B s₀ s) = DomainValue.pyNone
  | _, _, .nil _ => rfl
  | _, _, .cons _ rest => run_pyNone rest

/-! ### Claim C1 (box ReLU bound update) -/

/-- Claim C1, counterexample.  The claim states that the box ReLU returns
bounds recomputed via `update_lu` from the slope-scaled center/radius, "not a
naive elementwise relu of the old lower/upper bounds".  On the concrete
ambiguous state `exBox` (bounds [-1, 1]) the code returns exactly the naive
elementwise relu of the old bounds, `[0, 1]`, which differs from the
slope-scaled lower bound `λ·lower = -(1000000/2000001)`. -/
theorem C1_counterexample :
    exBox.l 0 0 < 0 ∧ 0 < exBox.u 0 0 ∧
    (Interval_ReLU.forwardBox exBox).l 0 0 = max 0 (exBox.l 0 0) ∧
    (Interval_ReLU.forwardBox exBox).u 0 0 = max 0 (exBox.u 0 0) ∧
    boxMask exBox 0 0 * exBox.l 0 0 = -(1000000/2000001) ∧
    (Interval_ReLU.forwardBox exBox).l 0 0 ≠ boxMask exBox 0 0 * exBox.l 0 0 := by
  have hmask : boxMask exBox 0 0 * exBox.l 0 0 = -(1000000/2000001) := by
    norm_num [boxMask, boxApprInd, boxDenom, exBox, Interval.construct, Interval.ofBounds]
  refine ⟨by norm_num [exBox, Interval.construct, Interval.ofBounds],
    by norm_num [exBox, Interval.construct, Interval.ofBounds], rfl, rfl, hmask, ?_⟩
  rw [hmask]
  show max 0 (exBox.l 0 0) ≠ _
  norm_num [exBox, Interval.construct, Interval.ofBounds]

/-- Claim C1, amended: for the box domain the ReLU transfer function sets the
new bounds via `update_lu` to the naive elementwise relu of the old bounds
(`F.relu(l)`, `F.relu(u)`), and only appends the slope mask to the diagnostic
mask list; for every ambiguous unit the resulting lower bound equals (hence
is at least as tight as) relu of the old lower bound. -/
theorem C1_amended_box_relu {B : Nat} {ι : Type} (ix : Interval B ι)
    (b : Fin B) (j : ι) :
    (Interval_ReLU.forwardBox ix).l b j = max 0 (ix.l b j) ∧
    (Interval_ReLU.forwardBox ix).u b j = max 0 (ix.u b j) ∧
    (Interval_ReLU.forwardBox ix).mask = ix.mask ++ [boxMask ix] ∧
    (ix.l b j < 0 → 0 < ix.u b j →
      max 0 (ix.l b j) ≤ (Interval_ReLU.forwardBox ix).l b j) :=
  ⟨rfl, rfl, rfl, fun _ _ => le_of_eq rfl⟩

/-- Claim C1, witness: the amended theorem applied to the concrete ambiguous
state `exBox`. -/
theorem C1_witness :
    (Interval_ReLU.forwardBox exBox).l 0 0 = max 0 (exBox.l 0 0) ∧
    (Interval_ReLU.forwardBox exBox).mask = exBox.mask ++ [boxMask exBox] ∧
    max 0 (exBox.l 0 0) ≤ (Interval_ReLU.forwardBox exBox).l 0 0 := by
  obtain ⟨h1, _, h3, h4⟩ := C1_amended_box_relu exBox 0 0
  exact ⟨h1, h3, h4 (by norm_num [exBox, Interval.construct, Interval.ofBounds])
    (by norm_num [exBox, Interval.construct, Interval.ofBounds])⟩

/-! ### Claim C2 (symbolic ReLU transfer function) -/

/-- Claim C2, counterexample.  The claim states that "units with lower ≥ 0
get slope 1".  On the concrete state `exSymZ`, whose single unit has bounds
[0, 1] (so lower = 0 ≥ 0), the source's `mask = (lower > 0)` gives slope 0,
not 1: the center is scaled to 0 instead of staying 1/2 and the exact
dependency is zeroed. -/
theorem C2_counterexample :
    0 ≤ exSymZ.l 0 0 ∧ 0 < exSymZ.u 0 0 ∧
    reluMask exSymZ 0 0 = 0 ∧ reluMask exSymZ 0 0 ≠ 1 ∧
    (Interval_ReLU.forwardSym exSymZ (List.finRange 1)).c 0 0 = 0 ∧
    exSymZ.c 0 0 = 1/2 ∧
    (Interval_ReLU.forwardSym exSymZ (List.finRange 1)).idep 0 0 0 = 0 ∧
    exSymZ.idep 0 0 0 = 1/2 := by
  have hm : reluMask exSymZ 0 0 = 0 := by
    norm_num [reluMask, exSymZ]
  refine ⟨by norm_num [exSymZ], by norm_num [exSymZ], hm, by rw [hm]; norm_num, ?_, ?_, ?_, ?_⟩
  · show exSymZ.c 0 0 * reluMask exSymZ 0 0 +
      (if exSymZ.l 0 0 < 0 ∧ 0 < exSymZ.u 0 0 then apprErr exSymZ 0 0 else 0) = 0
    rw [hm, if_neg (by norm_num [exSymZ])]
    norm_num
  · norm_num [exSymZ]
  · show exSymZ.idep 0 0 0 * reluMask exSymZ 0 0 = 0
    rw [hm]
    norm_num
  · norm_num [exSymZ]

/-- Claim C2, amended: for the symbolic domain the ReLU transfer function
treats every unit with lower < 0 < upper as ambiguous with slope
λ = upper/(upper-lower), scales that unit's center, exact-dependency column
and every existing error row (via its owning sample's mask) by the mask,
shifts the center by λ·(-lower)/2 at ambiguous units, and appends exactly one
new error row per ambiguous unit, nonzero only at that unit's position with
magnitude λ·(-lower)/2; units with lower > 0 get slope 1, units with
upper ≤ 0 (given lower ≤ upper) get slope 0, and a unit with lower = 0 also
gets slope 0 with no new error term. -/
theorem C2_amended_sym_relu {B : Nat} {ι₀ ι : Type} [DecidableEq ι]
    (ix : Symbolic_interval B ι₀ ι) (order : List ι) (b : Fin B) (j : ι) :
    ((b, j) ∈ apprPairs ix order ↔
        j ∈ order ∧ (ix.l b j < 0 ∧ 0 < ix.u b j)) ∧
    (ix.l b j < 0 ∧ 0 < ix.u b j →
        reluMask ix b j = ix.u b j / (ix.u b j - ix.l b j) ∧
        (Interval_ReLU.forwardSym ix order).c b j
          = ix.c b j * reluMask ix b j + reluMask ix b j * (-ix.l b j) / 2) ∧
    (0 < ix.l b j → reluMask ix b j = 1) ∧
    (ix.l b j ≤ ix.u b j → ix.u b j ≤ 0 → reluMask ix b j = 0) ∧
    (ix.l b j = 0 → reluMask ix b j = 0) ∧
    (∀ k : ι₀, (Interval_ReLU.forwardSym ix order).idep b k j
        = ix.idep b k j * reluMask ix b j) ∧
    ((Interval_ReLU.forwardSym ix order).edep
        = ix.edep.map (reluScaleEntry (reluMask ix)) ++ [reluNewEntry ix order]) ∧
    (∀ en : EdepEntry B ι, ∀ r : Fin en.rows,
        (reluScaleEntry (reluMask ix) en).dep r j
          = en.dep r j * ∑ b2 : Fin B, en.ind r b2 * reluMask ix b2 j ∧
        (reluScaleEntry (reluMask ix) en).ind r = en.ind r) ∧
    (∀ r : Fin (apprPairs ix order).length,
        (ix.l ((apprPairs ix order).get r).1 ((apprPairs ix order).get r).2 < 0 ∧
         0 < ix.u ((apprPairs ix order).get r).1 ((apprPairs ix order).get r).2) ∧
        ∀ j2 : ι, (reluNewEntry ix order).dep r j2
          = if j2 = ((apprPairs ix order).get r).2
            then reluMask ix ((apprPairs ix order).get r).1
                   ((apprPairs ix order).get r).2 *
                 (-ix.l ((apprPairs ix order).get r).1
                   ((apprPairs ix order).get r).2) / 2
            else 0) ∧
    (order.Nodup → j ∈ order → ix.l b j < 0 → 0 < ix.u b j →
        ∃! r : Fin (apprPairs ix order).length,
          (apprPairs ix order).get r = (b, j)) := by
  refine ⟨mem_apprPairs ix order b j, ?_, ?_, ?_, ?_, fun k => rfl, rfl, ?_, ?_, ?_⟩
  · intro h
    constructor
    · show (if ix.l b j < 0 ∧ 0 < ix.u b j
          then ix.u b j / (ix.u b j - ix.l b j)
          else if 0 < ix.l b j then 1 else 0) = _
      rw [if_pos h]
    · show ix.c b j * reluMask ix b j +
        (if ix.l b j < 0 ∧ 0 < ix.u b j then apprErr ix b j else 0) = _
      rw [if_pos h, apprErr]
  · intro h
    have h1 : ¬(ix.l b j < 0 ∧ 0 < ix.u b j) := by
      rintro ⟨h2, _⟩
      linarith
    show (if ix.l b j < 0 ∧ 0 < ix.u b j
        then ix.u b j / (ix.u b j - ix.l b j)
        else if 0 < ix.l b j then 1 else 0) = 1
    rw [if_neg h1, if_pos h]
  · intro hle hu
    have h1 : ¬(ix.l b j < 0 ∧ 0 < ix.u b j) := by
      rintro ⟨_, h2⟩
      linarith
    have h2 : ¬(0 < ix.l b j) := by linarith
    show (if ix.l b j < 0 ∧ 0 < ix.u b j
        then ix.u b j / (ix.u b j - ix.l b j)
        else if 0 < ix.l b j then 1 else 0) = 0
    rw [if_neg h1, if_neg h2]
  · intro h0
    have h1 : ¬(ix.l b j < 0 ∧ 0 < ix.u b j) := by
      rintro ⟨h2, _⟩
      rw [h0] at h2
      exact lt_irrefl 0 h2
    have h2 : ¬(0 < ix.l b j) := by
      rw [h0]
      exact lt_irrefl 0
    show (if ix.l b j < 0 ∧ 0 < ix.u b j
        then ix.u b j / (ix.u b j - ix.l b j)
        else if 0 < ix.l b j then 1 else 0) = 0
    rw [if_neg h1, if_neg h2]
  · intro en r
    exact ⟨rfl, rfl⟩
  · intro r
    have hmem : (apprPairs ix order).get r ∈ apprPairs ix order :=
      List.get_mem _ _ r.isLt
    have h2 := of_decide_eq_true (List.mem_filter.1 hmem).2
    exact ⟨h2, fun j2 => rfl⟩
  · intro hnd hj hl hu
    have hm : (b, j) ∈ apprPairs ix order :=
      (mem_apprPairs ix order b j).2 ⟨hj, hl, hu⟩
    obtain ⟨r, hr⟩ := List.get_of_mem hm
    refine ⟨r, hr, ?_⟩
    intro r2 hr2
    exact List.nodup_iff_injective_get.1 (apprPairs_nodup ix order hnd)
      (hr2.trans hr.symm)

/-- Claim C2, witness: the amended theorem applied to the concrete ambiguous
state `exSymAmb` (bounds [-1, 1], slope 1/2). -/
theorem C2_witness :
    reluMask exSymAmb 0 0 = exSymAmb.u 0 0 / (exSymAmb.u 0 0 - exSymAmb.l 0 0) ∧
    (Interval_ReLU.forwardSym exSymAmb (List.finRange 1)).c 0 0
      = exSymAmb.c 0 0 * reluMask exSymAmb 0 0 +
        reluMask exSymAmb 0 0 * (-exSymAmb.l 0 0) / 2 ∧
    (∃! r : Fin (apprPairs exSymAmb (List.finRange 1)).length,
      (apprPairs exSymAmb (List.finRange 1)).get r = (0, 0)) := by
  obtain ⟨_, hamb, _, _, _, _, _, _, _, hcount⟩ :=
    C2_amended_sym_relu exSymAmb (List.finRange 1) 0 0
  obtain ⟨hm, hc⟩ := hamb (by constructor <;> norm_num [exSymAmb])
  exact ⟨hm, hc, hcount (by decide) (by decide)
    (by norm_num [exSymAmb]) (by norm_num [exSymAmb])⟩

/-! ### Claim C3 (error-row accounting and one-hot owners) -/

/-- Claim C3: after the symbolic ReLU processes a batch with exactly `k`
ambiguous positions in total, exactly one new error entry is appended, it has
exactly `k` rows, its owner-indicator rows are one-hot (a single 1 per row),
existing owner indicators are unchanged, and one-hotness of all owner rows is
preserved, so no error term ever couples two samples. -/
theorem C3_error_row_accounting {B : Nat} {ι₀ ι : Type} [Fintype ι] [DecidableEq ι]
    (ix : Symbolic_interval B ι₀ ι) (order : List ι)
    (hnd : order.Nodup) (hc : ∀ j : ι, j ∈ order) :
    ((Interval_ReLU.forwardSym ix order).edep
        = ix.edep.map (reluScaleEntry (reluMask ix)) ++ [reluNewEntry ix order]) ∧
    ((Interval_ReLU.forwardSym ix order).edep.length = ix.edep.length + 1) ∧
    ((reluNewEntry ix order).rows = apprCard ix) ∧
    (apprCard ix = ((Finset.univ : Finset (Fin B × ι)).filter
        (fun q => ix.l q.1 q.2 < 0 ∧ 0 < ix.u q.1 q.2)).card) ∧
    (∀ r : Fin (reluNewEntry ix order).rows, isOneHot ((reluNewEntry ix order).ind r)) ∧
    (∀ en : EdepEntry B ι, (reluScaleEntry (reluMask ix) en).ind = en.ind) ∧
    ((∀ en ∈ ix.edep, ∀ r : Fin en.rows, isOneHot (en.ind r)) →
      ∀ en ∈ (Interval_ReLU.forwardSym ix order).edep,
        ∀ r : Fin en.rows, isOneHot (en.ind r)) := by
  refine ⟨rfl, ?_, length_apprPairs ix order hnd hc, rfl, ?_, fun en => rfl, ?_⟩
  · show (ix.edep.map (reluScaleEntry (reluMask ix)) ++ [reluNewEntry ix order]).length
      = ix.edep.length + 1
    rw [List.length_append, List.length_map, List.length_singleton]
  · intro r
    refine ⟨((apprPairs ix order).get r).1, ?_, ?_⟩
    · show (if ((apprPairs ix order).get r).1 = ((apprPairs ix order).get r).1
          then (1 : ℚ) else 0) = 1
      rw [if_pos rfl]
    · intro b2 hb2
      show (if b2 = ((apprPairs ix order).get r).1 then (1 : ℚ) else 0) = 0
      rw [if_neg hb2]
  · intro hall en hen r
    have hen2 : en ∈ ix.edep.map (reluScaleEntry (reluMask ix)) ++ [reluNewEntry ix order] :=
      hen
    rcases List.mem_append.1 hen2 with hl | hr
    · obtain ⟨en0, hen0, rfl⟩ := List.mem_map.1 hl
      exact hall en0 hen0 r
    · have heq : en = reluNewEntry ix order := by
        simpa using hr
      subst heq
      refine ⟨((apprPairs ix order).get r).1, ?_, ?_⟩
      · show (if ((apprPairs ix order).get r).1 = ((apprPairs ix order).get r).1
            then (1 : ℚ) else 0) = 1
        rw [if_pos rfl]
      · intro b2 hb2
        show (if b2 = ((apprPairs ix order).get r).1 then (1 : ℚ) else 0) = 0
        rw [if_neg hb2]

/-- Claim C3, witness: the accounting theorem applied to the concrete batch
state `exSym3` (two samples, two units, one ambiguous position). -/
theorem C3_witness :
    (Interval_ReLU.forwardSym exSym3 (List.finRange 2)).edep.length
      = exSym3.edep.length + 1 ∧
    (reluNewEntry exSym3 (List.finRange 2)).rows = apprCard exSym3 ∧
    ∀ r : Fin (reluNewEntry exSym3 (List.finRange 2)).rows,
      isOneHot ((reluNewEntry exSym3 (List.finRange 2)).ind r) := by
  obtain ⟨_, h2, h3, _, h5, _, _⟩ :=
    C3_error_row_accounting exSym3 (List.finRange 2) (by decide) (by decide)
  exact ⟨h2, h3, h5⟩

/-! ### Claim C4 (symbolic affine transfer functions are exact) -/

/-- Claim C4: for the symbolic domain the Dense and Conv transfer functions
update the center to `W·center + b`, the exact dependency to `W·exact_dep`
with no bias, every error entry to `W·error_deps[i]` with no bias, and append
no new error terms (the length of `edep` is unchanged). -/
theorem C4_sym_affine_exact {B : Nat} {ι₀ : Type} [Fintype ι₀] :
    (∀ (p q : Nat) (W : Fin p → Fin q → ℚ) (bias : Fin p → ℚ)
        (ix : Symbolic_interval B ι₀ (Fin q)) (b : Fin B) (o : Fin p),
      (Interval_Dense.forwardSym W bias ix).c b o
          = (∑ j : Fin q, ix.c b j * W o j) + bias o ∧
      (∀ k : ι₀, (Interval_Dense.forwardSym W bias ix).idep b k o
          = ∑ j : Fin q, ix.idep b k j * W o j) ∧
      (Interval_Dense.forwardSym W bias ix).edep
          = ix.edep.map (fun en => ⟨en.rows, fun r => linearNB W (en.dep r), en.ind⟩) ∧
      (Interval_Dense.forwardSym W bias ix).edep.length = ix.edep.length) ∧
    (∀ (C H W2 KH KW O OH OW : Nat)
        (w : Fin O → Fin C → Fin KH → Fin KW → ℚ) (bias : Fin O → ℚ)
        (sh sw ph pw : Nat)
        (ix : Symbolic_interval B ι₀ (Fin C × Fin H × Fin W2)) (b : Fin B)
        (q : Fin O × Fin OH × Fin OW),
      (Interval_Conv2d.forwardSym w bias sh sw ph pw ix).c b q
          = conv2d w bias sh sw ph pw (fun cc i j => ix.c b (cc, i, j)) q.1 q.2.1 q.2.2 ∧
      (∀ k : ι₀, (Interval_Conv2d.forwardSym w bias sh sw ph pw ix).idep b k q
          = conv2d w (fun _ => 0) sh sw ph pw
              (fun cc i j => ix.idep b k (cc, i, j)) q.1 q.2.1 q.2.2) ∧
      (Interval_Conv2d.forwardSym w bias sh sw ph pw ix
            : Symbolic_interval B ι₀ (Fin O × Fin OH × Fin OW)).edep
          = ix.edep.map (fun en =>
              ⟨en.rows,
               fun r (qq : Fin O × Fin OH × Fin OW) => conv2d w (fun _ => 0) sh sw ph pw
                 (fun cc i j => en.dep r (cc, i, j)) qq.1 qq.2.1 qq.2.2,
               en.ind⟩) ∧
      (Interval_Conv2d.forwardSym w bias sh sw ph pw ix
            : Symbolic_interval B ι₀ (Fin O × Fin OH × Fin OW)).edep.length
          = ix.edep.length) := by
  constructor
  · intro p q W bias ix b o
    refine ⟨rfl, fun k => rfl, rfl, ?_⟩
    show (ix.edep.map _).length = ix.edep.length
    rw [List.length_map]
  · intro C H W2 KH KW O OH OW w bias sh sw ph pw ix b q
    refine ⟨rfl, fun k => rfl, rfl, ?_⟩
    show (ix.edep.map _).length = ix.edep.length
    rw [List.length_map]

/-! ### Claim C5 (box affine transfer functions) -/

/-- Claim C5: for the box domain the Dense and Conv transfer functions
compute the new center as `W·center + b`, the new radius as `|W|·radius`
(absolute weights, no bias), and set the new bounds to center - radius and
center + radius. -/
theorem C5_box_affine {B : Nat} :
    (∀ (p q : Nat) (W : Fin p → Fin q → ℚ) (bias : Fin p → ℚ)
        (ix : Interval B (Fin q)) (b : Fin B) (o : Fin p),
      (Interval_Dense.forwardBox W bias ix).c b o
          = (∑ j : Fin q, ix.c b j * W o j) + bias o ∧
      (Interval_Dense.forwardBox W bias ix).e b o
          = ∑ j : Fin q, ix.e b j * |W o j| ∧
      (Interval_Dense.forwardBox W bias ix).l b o
          = ((∑ j : Fin q, ix.c b j * W o j) + bias o)
              - ∑ j : Fin q, ix.e b j * |W o j| ∧
      (Interval_Dense.forwardBox W bias ix).u b o
          = ((∑ j : Fin q, ix.c b j * W o j) + bias o)
              + ∑ j : Fin q, ix.e b j * |W o j|) ∧
    (∀ (C H W2 KH KW O OH OW : Nat)
        (w : Fin O → Fin C → Fin KH → Fin KW → ℚ) (bias : Fin O → ℚ)
        (sh sw ph pw : Nat)
        (ix : Interval B (Fin C × Fin H × Fin W2)) (b : Fin B)
        (q : Fin O × Fin OH × Fin OW),
      (Interval_Conv2d.forwardBox w bias sh sw ph pw ix).c b q
          = conv2d w bias sh sw ph pw (fun cc i j => ix.c b (cc, i, j)) q.1 q.2.1 q.2.2 ∧
      (Interval_Conv2d.forwardBox w bias sh sw ph pw ix).e b q
          = conv2d (fun o cc di dj => |w o cc di dj|) (fun _ => 0) sh sw ph pw
              (fun cc i j => ix.e b (cc, i, j)) q.1 q.2.1 q.2.2 ∧
      (Interval_Conv2d.forwardBox w bias sh sw ph pw ix).l b q
          = conv2d w bias sh sw ph pw (fun cc i j => ix.c b (cc, i, j)) q.1 q.2.1 q.2.2
              - conv2d (fun o cc di dj => |w o cc di dj|) (fun _ => 0) sh sw ph pw
                  (fun cc i j => ix.e b (cc, i, j)) q.1 q.2.1 q.2.2 ∧
      (Interval_Conv2d.forwardBox w bias sh sw ph pw ix).u b q
          = conv2d w bias sh sw ph pw (fun cc i j => ix.c b (cc, i, j)) q.1 q.2.1 q.2.2
              + conv2d (fun o cc di dj => |w o cc di dj|) (fun _ => 0) sh sw ph pw
                  (fun cc i j => ix.e b (cc, i, j)) q.1 q.2.1 q.2.2) := by
  constructor
  · intro p q W bias ix b o
    refine ⟨?_, ?_, rfl, rfl⟩
    · show ((linearB W bias (ix.c b) o - linearNB (fun o2 j => |W o2 j|) (ix.e b) o)
          + (linearB W bias (ix.c b) o + linearNB (fun o2 j => |W o2 j|) (ix.e b) o)) / 2
        = (∑ j : Fin q, ix.c b j * W o j) + bias o
      rw [linearB, linearNB]
      ring
    · show ((linearB W bias (ix.c b) o + linearNB (fun o2 j => |W o2 j|) (ix.e b) o)
          - (linearB W bias (ix.c b) o - linearNB (fun o2 j => |W o2 j|) (ix.e b) o)) / 2
        = ∑ j : Fin q, ix.e b j * |W o j|
      rw [linearB, linearNB]
      ring
  · intro C H W2 KH KW O OH OW w bias sh sw ph pw ix b q
    refine ⟨?_, ?_, rfl, rfl⟩
    · show ((conv2d w bias sh sw ph pw (fun cc i j => ix.c b (cc, i, j)) q.1 q.2.1 q.2.2
            - conv2d (fun o cc di dj => |w o cc di dj|) (fun _ => 0) sh sw ph pw
                (fun cc i j => ix.e b (cc, i, j)) q.1 q.2.1 q.2.2)
          + (conv2d w bias sh sw ph pw (fun cc i j => ix.c b (cc, i, j)) q.1 q.2.1 q.2.2
            + conv2d (fun o cc di dj => |w o cc di dj|) (fun _ => 0) sh sw ph pw
                (fun cc i j => ix.e b (cc, i, j)) q.1 q.2.1 q.2.2)) / 2
        = conv2d w bias sh sw ph pw (fun cc i j => ix.c b (cc, i, j)) q.1 q.2.1 q.2.2
      ring
    · show ((conv2d w bias sh sw ph pw (fun cc i j => ix.c b (cc, i, j)) q.1 q.2.1 q.2.2
            + conv2d (fun o cc di dj => |w o cc di dj|) (fun _ => 0) sh sw ph pw
                (fun cc i j => ix.e b (cc, i, j)) q.1 q.2.1 q.2.2)
          - (conv2d w bias sh sw ph pw (fun cc i j => ix.c b (cc, i, j)) q.1 q.2.1 q.2.2
            - conv2d (fun o cc di dj => |w o cc di dj|) (fun _ => 0) sh sw ph pw
                (fun cc i j => ix.e b (cc, i, j)) q.1 q.2.1 q.2.2)) / 2
        = conv2d (fun o cc di dj => |w o cc di dj|) (fun _ => 0) sh sw ph pw
            (fun cc i j => ix.e b (cc, i, j)) q.1 q.2.1 q.2.2
      ring

/-! ### Claim C6 (no division by exactly zero in the ReLU transfer) -/

/-- Claim C6: a unit with `upper == lower` is classified non-ambiguous in
both branches (getting slope 1 or 0 by the sign classification), the box
branch's slope denominator `upper - lower + 1e-6` is nonzero there (and
whenever `lower ≤ upper`), and the symbolic branch only ever divides at
ambiguous units, where the denominator `upper - lower` is nonzero. -/
theorem C6_no_div_by_zero {B : Nat} {ι ι₀ : Type}
    (ixb : Interval B ι) (ixs : Symbolic_interval B ι₀ ι) (b : Fin B) (j : ι) :
    (ixb.u b j = ixb.l b j →
      boxDenom ixb b j = 1/1000000 ∧ boxDenom ixb b j ≠ 0 ∧
      boxApprInd ixb b j = 0 ∧
      boxMask ixb b j = (if 0 < ixb.u b j then 1 else 0)) ∧
    (ixb.l b j ≤ ixb.u b j → boxDenom ixb b j ≠ 0) ∧
    (ixs.u b j = ixs.l b j →
      ¬(ixs.l b j < 0 ∧ 0 < ixs.u b j) ∧
      reluMask ixs b j = (if 0 < ixs.l b j then 1 else 0)) ∧
    (ixs.l b j < 0 ∧ 0 < ixs.u b j → ixs.u b j - ixs.l b j ≠ 0) := by
  refine ⟨?_, ?_, ?_, ?_⟩
  · intro h
    have hna : ¬(ixb.l b j < 0 ∧ 0 < ixb.u b j) := by
      rintro ⟨h1, h2⟩
      rw [h] at h2
      linarith
    have hd : boxDenom ixb b j = 1/1000000 := by
      rw [boxDenom, h]
      ring
    refine ⟨hd, by rw [hd]; norm_num, ?_, ?_⟩
    · rw [boxApprInd, if_neg hna]
    · rw [boxMask, boxApprInd, if_neg hna]
      ring
  · intro h
    have hpos : 0 < boxDenom ixb b j := by
      rw [boxDenom]
      linarith
    exact ne_of_gt hpos
  · intro h
    have hna : ¬(ixs.l b j < 0 ∧ 0 < ixs.u b j) := by
      rintro ⟨h1, h2⟩
      rw [h] at h2
      linarith
    refine ⟨hna, ?_⟩
    show (if ixs.l b j < 0 ∧ 0 < ixs.u b j
        then ixs.u b j / (ixs.u b j - ixs.l b j)
        else if 0 < ixs.l b j then 1 else 0) = _
    rw [if_neg hna]
  · rintro ⟨h1, h2⟩
    have hpos : 0 < ixs.u b j - ixs.l b j := by linarith
    exact ne_of_gt hpos

/-- Claim C6, witness: the theorem applied to the concrete degenerate states
`exBoxDeg` and `exSymDeg` (bounds [1, 1]). -/
theorem C6_witness :
    boxDenom exBoxDeg 0 0 ≠ 0 ∧
    boxApprInd exBoxDeg 0 0 = 0 ∧
    ¬(exSymDeg.l 0 0 < 0 ∧ 0 < exSymDeg.u 0 0) ∧
    reluMask exSymDeg 0 0 = (if 0 < exSymDeg.l 0 0 then 1 else 0) := by
  obtain ⟨hbox, _, hsym, _⟩ := C6_no_div_by_zero exBoxDeg exSymDeg 0 0
  obtain ⟨_, hd, ha, _⟩ := hbox (by norm_num [exBoxDeg, Interval.construct, Interval.ofBounds])
  obtain ⟨hs1, hs2⟩ := hsym (by norm_num [exSymDeg])
  exact ⟨hd, ha, hs1, hs2⟩

/-! ### Claim C7 (network driver construction and forward pass) -/

/-- Claim C7: the driver creates exactly one transfer function per
recognized (Linear / ReLU / Conv2d / Flatten) layer in order, silently skips
every unrecognized layer kind, and its forward pass applies the transfer
functions in sequence order, passing the possibly-mutated domain forward and
returning the final domain. -/
theorem C7_driver :
    (∀ (s u : Shape) (rest : LayerSeq s u),
        Interval_network (.cons (.unrecognized s) rest) = Interval_network rest) ∧
    (∀ (s t : Shape) (net : LayerSeq s t),
        (Interval_network net).len = net.countRecognized) ∧
    (∀ (q p : Nat) (W : Fin p → Fin q → ℚ) (bias : Fin p → ℚ) (u : Shape)
        (rest : LayerSeq (.flat p) u),
        Interval_network (.cons (.linear W bias) rest)
          = .cons (.dense W bias) (Interval_network rest)) ∧
    (∀ (s u : Shape) (rest : LayerSeq s u),
        Interval_network (.cons (.relu s) rest)
          = .cons (.relu s) (Interval_network rest)) ∧
    (∀ (C H W2 O KH KW OH OW : Nat)
        (w : Fin O → Fin C → Fin KH → Fin KW → ℚ) (bias : Fin O → ℚ)
        (sh sw ph pw : Nat) (u : Shape)
        (rest : LayerSeq (.spatial O OH OW) u),
        Interval_network (.cons
            (Layer.conv2d w bias sh sw ph pw : Layer (.spatial C H W2) (.spatial O OH OW)) rest)
          = .cons (.conv w bias sh sw ph pw) (Interval_network rest)) ∧
    (∀ (c h w : Nat) (u : Shape) (rest : LayerSeq (.flat (c * h * w)) u),
        Interval_network (.cons (.flatten c h w) rest)
          = .cons (.flatten c h w) (Interval_network rest)) ∧
    (∀ (B : Nat) (s₀ s t u : Shape) (tf : TransferFn s t) (rest : TFSeq t u)
        (d : DomainValue B s₀ s),
        TFSeq.run (.cons tf rest) d = rest.run (tf.apply d)) ∧
    (∀ (B : Nat) (s₀ s : Shape) (d : DomainValue B s₀ s),
        TFSeq.run (.nil s) d = d) := by
  refine ⟨fun s u rest => by simp [Interval_network], ?_,
    fun q p W bias u rest => by simp [Interval_network],
    fun s u rest => by simp [Interval_network],
    fun C H W2 O KH KW OH OW w bias sh sw ph pw u rest => by simp [Interval_network],
    fun c h w u rest => by simp [Interval_network],
    fun B s₀ s t u tf rest d => rfl,
    fun B s₀ s d => rfl⟩
  intro s t net
  induction net with
  | nil s => rfl
  | cons lay rest ih =>
      cases lay with
      | linear W bias => simp [Interval_network, TFSeq.len, LayerSeq.countRecognized, ih]
      | relu s => simp [Interval_network, TFSeq.len, LayerSeq.countRecognized, ih]
      | conv2d w bias sh sw ph pw =>
          simp [Interval_network, TFSeq.len, LayerSeq.countRecognized, ih]
      | flatten c h w => simp [Interval_network, TFSeq.len, LayerSeq.countRecognized, ih]
      | unrecognized s => simp [Interval_network, LayerSeq.countRecognized, ih]

/-! ### Claim C8 (entry points: clamping, robust loss, robust error rate) -/

/-- Claim C8: both entry points clamp `input - epsilon` and `input + epsilon`
to the minimum and maximum of the input batch before constructing the initial
domain, and return the cross-entropy of the worst-case logits against the
true labels together with the fraction of samples whose worst-case argmax
prediction disagrees with the true label. -/
theorem C8_entry_points {B K : Nat} {s : Shape} (model : LayerSeq s (.flat K))
    (epsilon : ℚ) (X : Fin B → s.Idx → ℚ) (y : Fin B → Fin K)
    (hne : (Finset.univ : Finset (Fin B × s.Idx)).Nonempty) (hK : 0 < K) :
    naive_interval_analyze model epsilon X y hne hK =
      (crossEntropyLoss
        (((Interval_network model).runBox (Interval.construct
            (fun b j => clampQ (X b j - epsilon) (batchMin X hne) (batchMax X hne))
            (fun b j => clampQ (X b j + epsilon) (batchMin X hne) (batchMax X hne)))).worst_case y) y,
       errRate
        (((Interval_network model).runBox (Interval.construct
            (fun b j => clampQ (X b j - epsilon) (batchMin X hne) (batchMax X hne))
            (fun b j => clampQ (X b j + epsilon) (batchMin X hne) (batchMax X hne)))).worst_case y)
        y hK) ∧
    sym_interval_analyze model epsilon X y hne hK =
      (crossEntropyLoss
        (((Interval_network model).runSym (Symbolic_interval.construct
            (fun b j => clampQ (X b j - epsilon) (batchMin X hne) (batchMax X hne))
            (fun b j => clampQ (X b j + epsilon) (batchMin X hne) (batchMax X hne)))).worst_case y) y,
       errRate
        (((Interval_network model).runSym (Symbolic_interval.construct
            (fun b j => clampQ (X b j - epsilon) (batchMin X hne) (batchMax X hne))
            (fun b j => clampQ (X b j + epsilon) (batchMin X hne) (batchMax X hne)))).worst_case y)
        y hK) :=
  ⟨rfl, rfl⟩

/-- Claim C8, witness: the entry-point theorem applied to the concrete
one-layer model `exModel` with zero perturbation on a one-sample batch. -/
theorem C8_witness :
    naive_interval_analyze exModel 0 exX exY exHne exHK =
      (crossEntropyLoss
        (((Interval_network exModel).runBox (Interval.construct
            (fun b j => clampQ (exX b j - 0) (batchMin exX exHne) (batchMax exX exHne))
            (fun b j => clampQ (exX b j + 0) (batchMin exX exHne) (batchMax exX exHne)))).worst_case
          exY) exY,
       errRate
        (((Interval_network exModel).runBox (Interval.construct
            (fun b j => clampQ (exX b j - 0) (batchMin exX exHne) (batchMax exX exHne))
            (fun b j => clampQ (exX b j + 0) (batchMin exX exHne) (batchMax exX exHne)))).worst_case
          exY) exY exHK) :=
  (C8_entry_points exModel 0 exX exY exHne exHK).1

/-! ### Claim C9 (determinism / purity of the entry points) -/

/-- Claim C9: the entry points are deterministic and pure — two runs on the
same model, epsilon, inputs and labels produce identical loss and error-rate
outputs. -/
theorem C9_deterministic {B K : Nat} {s : Shape}
    (m1 m2 : LayerSeq s (.flat K)) (e1 e2 : ℚ)
    (X1 X2 : Fin B → s.Idx → ℚ) (y1 y2 : Fin B → Fin K)
    (hne1 hne2 : (Finset.univ : Finset (Fin B × s.Idx)).Nonempty)
    (hK1 hK2 : 0 < K)
    (hm : m1 = m2) (he : e1 = e2) (hX : X1 = X2) (hy : y1 = y2) :
    naive_interval_analyze m1 e1 X1 y1 hne1 hK1
      = naive_interval_analyze m2 e2 X2 y2 hne2 hK2 ∧
    sym_interval_analyze m1 e1 X1 y1 hne1 hK1
      = sym_interval_analyze m2 e2 X2 y2 hne2 hK2 := by
  subst hm
  subst he
  subst hX
  subst hy
  exact ⟨rfl, rfl⟩

/-- Claim C9, witness: two runs on the same concrete arguments coincide. -/
theorem C9_witness :
    naive_interval_analyze exModel 0 exX exY exHne exHK
      = naive_interval_analyze exModel 0 exX exY exHne exHK ∧
    sym_interval_analyze exModel 0 exX exY exHne exHK
      = sym_interval_analyze exModel 0 exX exY exHne exHK :=
  C9_deterministic exModel exModel 0 0 exX exX exY exY exHne exHne exHK exHK
    rfl rfl rfl rfl

/-! ### Claim C10 (non-domain inputs yield None, which then propagates) -/

/-- Claim C10: a transfer function receiving an input that is neither an
`Interval` nor a `Symbolic_interval` returns `None` (not the input unchanged
and without raising), and the driver then passes `None` through all
subsequent layers, returning `None`. -/
theorem C10_none_propagation :
    (∀ (B : Nat) (s₀ s t : Shape) (tf : TransferFn s t),
        tf.apply (DomainValue.otherObj : DomainValue B s₀ s) = DomainValue.pyNone ∧
        tf.apply (DomainValue.otherObj : DomainValue B s₀ s) ≠ DomainValue.otherObj ∧
        tf.apply (DomainValue.pyNone : DomainValue B s₀ s) = DomainValue.pyNone) ∧
    (∀ (B : Nat) (s₀ s t : Shape) (net : TFSeq s t),
        TFSeq.run net (DomainValue.pyNone : DomainValue B s₀ s) = DomainValue.pyNone) ∧
    (∀ (B : Nat) (s₀ s t u : Shape) (tf : TransferFn s t) (rest : TFSeq t u),
        TFSeq.run (.cons tf rest) (DomainValue.otherObj : DomainValue B s₀ s)
          = DomainValue.pyNone) := by
  refine ⟨?_, ?_, ?_⟩
  · intro B s₀ s t tf
    refine ⟨rfl, ?_, rfl⟩
    intro h
    exact DomainValue.noConfusion h
  · intro B s₀ s t net
    exact run_pyNone net
  · intro B s₀ s t u tf rest
    show rest.run (tf.apply (DomainValue.otherObj : DomainValue B s₀ s)) = _
    show rest.run (DomainValue.pyNone : DomainValue B s₀ t) = _
    exact run_pyNone rest

/-- Claim C10, witness: the propagation theorem applied to a concrete ReLU
transfer function and the empty sequence. -/
theorem C10_witness :
    TransferFn.apply (TransferFn.relu (Shape.flat 1))
      (DomainValue.otherObj : DomainValue 1 (Shape.flat 1) (Shape.flat 1))
      = DomainValue.pyNone ∧
    TFSeq.run (TFSeq.nil (Shape.flat 1))
      (DomainValue.pyNone : DomainValue 1 (Shape.flat 1) (Shape.flat 1))
      = DomainValue.pyNone := by
  obtain ⟨h1, h2, h3⟩ :=
    C10_none_propagation.1 1 (Shape.flat 1) (Shape.flat 1) (Shape.flat 1)
      (TransferFn.relu (Shape.flat 1))
  exact ⟨h1, C10_none_propagation.2.1 1 (Shape.flat 1) (Shape.flat 1) (Shape.flat 1)
    (TFSeq.nil (Shape.flat 1))⟩

end SIP
